import Mathlib

set_option maxRecDepth 40000

/-!
# Verification of the Mpox report extraction engine (`pdf_parser.py` / `mpox_parser.py`)

A shallow embedding of the extraction engine.  Python regular expressions are
embedded via a small backtracking matcher (`reM`) over `List Char` with
Python `re` semantics: leftmost match, greedy/lazy quantifiers with
backtracking, capture groups, `IGNORECASE` via `litCI`, `DOTALL` via the
universally true character class, `$` matching at the end of input or before a
sole trailing newline.  Character classes model the ASCII behaviour of the
patterns in the source (all inputs of interest are ASCII).  Python machine
integers are modelled as `Int`, the float expression `round(total*value/100)`
as exact rational arithmetic with Python's round-half-to-even (`pyRound`);
fallible conversions (`int(...)` under `try/except`) return `Option Int`.
File-system/PDF I/O is out of scope: functions take the already-extracted
document text, as the spec's external-interface section prescribes.
-/

/-! ## Character classes and Python string helpers -/

/-- Python `str` whitespace / regex `\s` (ASCII part). -/
def pyWs (c : Char) : Bool :=
  c == ' ' || c == '\t' || c == '\n' || c == '\r' || c == '\x0b' || c == '\x0c'

/-- Regex `\d` (ASCII digits). -/
def dCls (c : Char) : Bool := c.isDigit

/-- Regex `.` under `re.DOTALL`. -/
def anyCls (_ : Char) : Bool := true

/-- Regex class `[A-Za-z\s]`. -/
def alphaWs (c : Char) : Bool := c.isAlpha || pyWs c

/-- Regex class `[–:-]` (en dash, colon, hyphen). -/
def dashSet (c : Char) : Bool := c == '–' || c == ':' || c == '-'

/-- Regex class `[:\-]`. -/
def colonDash (c : Char) : Bool := c == ':' || c == '-'

/-- Regex class `[\s:,-]`. -/
def wcdCls (c : Char) : Bool := pyWs c || c == ':' || c == ',' || c == '-'

/-- Regex class `[\s,;-]`. -/
def wscCls (c : Char) : Bool := pyWs c || c == ',' || c == ';' || c == '-'

/-- Regex class `[,\s]`. -/
def commaWs (c : Char) : Bool := c == ',' || pyWs c

/-- Regex class `[\d\-]`. -/
def digitDash (c : Char) : Bool := c.isDigit || c == '-'

/-- Regex class `[\n\.]`. -/
def termCls (c : Char) : Bool := c == '\n' || c == '.'

/-- Python `str.strip()` (whitespace at both ends). -/
def pyStrip (l : List Char) : List Char :=
  ((l.dropWhile pyWs).reverse.dropWhile pyWs).reverse

/-- Python `str.rstrip('.')`. -/
def pyRstripDot (l : List Char) : List Char :=
  (l.reverse.dropWhile (· == '.')).reverse

/-- Python `str.lower()` on ASCII text. -/
def lowerL (l : List Char) : List Char := l.map Char.toLower

/-- Python `str.replace(',', '')`. -/
def dropCommas (l : List Char) : List Char := l.filter (fun c => !(c == ','))

/-- Python `int(s)` on the digit strings produced by the regex groups:
`some` of the value on a nonempty all-digit string, `none` (a `ValueError`)
otherwise. -/
def intOfStr (l : List Char) : Option Int :=
  if !l.isEmpty && l.all Char.isDigit then
    some (Int.ofNat (l.foldl (fun a c => a * 10 + (c.toNat - 48)) 0))
  else none

/-- Python `round` (banker's rounding, half to even) on an exact rational. -/
def pyRound (q : ℚ) : Int :=
  let f : Int := ⌊q⌋
  if q - f < 1 / 2 then f
  else if (1 / 2 : ℚ) < q - f then f + 1
  else if f % 2 = 0 then f else f + 1

/-- Python `str.split(sep)` for a one-character separator. -/
def splitOnChar (sep : Char) : List Char → List (List Char)
  | [] => [[]]
  | c :: rest =>
    let r := splitOnChar sep rest
    if c == sep then [] :: r
    else
      match r with
      | h :: t => (c :: h) :: t
      | [] => [[c]]

/-- Python `str.splitlines()` for texts whose line breaks are `'\n'`
(no piece is produced after a trailing newline; the empty string has no
lines). -/
def pySplitLines (l : List Char) : List (List Char) :=
  let parts := splitOnChar '\n' l
  match parts.getLast? with
  | some [] => parts.dropLast
  | _ => parts

/-- Truthiness of a Python `Optional[str]`: `None` and `""` are falsy. -/
def optTruthy : Option String → Bool
  | none => false
  | some s => !s.data.isEmpty

/-! ## A backtracking regex engine with Python `re` semantics -/

/-- Capture groups: group index paired with the captured characters; entries
are prepended as groups complete, so the first entry for an index is the most
recent capture (as in Python, where a group holds its last match). -/
abbrev Caps := List (Nat × List Char)

/-- Regex abstract syntax.  Quantified subpatterns in the source are either
single character classes (`starC`/`plusC` greedy, `lazyStarC`/`lazyPlusC`
lazy) or the fixed-width alternative `(?:,\d{3})*` (`starNE`). -/
inductive RE where
  | eps
  | lit (c : Char)
  | litCI (c : Char)
  | cls (p : Char → Bool)
  | seq (r1 r2 : RE)
  | alt (r1 r2 : RE)
  | opt (r : RE)
  | starC (p : Char → Bool)
  | plusC (p : Char → Bool)
  | lazyStarC (p : Char → Bool)
  | lazyPlusC (p : Char → Bool)
  | starNE (r : RE)
  | group (i : Nat) (r : RE)
  | look (r : RE)
  | eos

/-- Greedy Kleene star of a character class, in continuation-passing style:
prefer consuming more, backtracking one character at a time. -/
def gStar {α : Type} (p : Char → Bool) : List Char → Caps → (List Char → Caps → Option α) → Option α
  | [], caps, k => k [] caps
  | c :: rest, caps, k =>
    if p c then (gStar p rest caps k) <|> k (c :: rest) caps else k (c :: rest) caps

/-- Lazy Kleene star of a character class: prefer consuming less. -/
def lStar {α : Type} (p : Char → Bool) : List Char → Caps → (List Char → Caps → Option α) → Option α
  | [], caps, k => (k [] caps) <|> none
  | c :: rest, caps, k =>
    (k (c :: rest) caps) <|> (if p c then lStar p rest caps k else none)

/-- Greedy star of an arbitrary subpattern, with the re-engine's guarantee of
progress per iteration (each iteration must consume input). -/
def starNEAux {α : Type} (body : List Char → Caps → (List Char → Caps → Option α) → Option α) :
    Nat → List Char → Caps → (List Char → Caps → Option α) → Option α
  | 0, s, caps, k => k s caps
  | fuel + 1, s, caps, k =>
    (body s caps (fun s' caps' =>
      if s'.length < s.length then starNEAux body fuel s' caps' k else none)) <|> k s caps

/-- The matcher: `reM r s caps k` attempts `r` at the start of `s`, invoking
the continuation `k` with the remaining input and updated captures; on failure
of `k` the next alternative of `r` is tried (backtracking). -/
def reM {α : Type} : RE → List Char → Caps → (List Char → Caps → Option α) → Option α
  | .eps, s, caps, k => k s caps
  | .lit c, s, caps, k =>
    match s with
    | [] => none
    | c' :: rest => if c' == c then k rest caps else none
  | .litCI c, s, caps, k =>
    match s with
    | [] => none
    | c' :: rest => if c'.toLower == c.toLower then k rest caps else none
  | .cls p, s, caps, k =>
    match s with
    | [] => none
    | c' :: rest => if p c' then k rest caps else none
  | .seq r1 r2, s, caps, k => reM r1 s caps (fun s' caps' => reM r2 s' caps' k)
  | .alt r1 r2, s, caps, k => (reM r1 s caps k) <|> (reM r2 s caps k)
  | .opt r, s, caps, k => (reM r s caps k) <|> k s caps
  | .starC p, s, caps, k => gStar p s caps k
  | .plusC p, s, caps, k =>
    match s with
    | [] => none
    | c :: rest => if p c then gStar p rest caps k else none
  | .lazyStarC p, s, caps, k => lStar p s caps k
  | .lazyPlusC p, s, caps, k =>
    match s with
    | [] => none
    | c :: rest => if p c then lStar p rest caps k else none
  | .starNE r, s, caps, k => starNEAux (reM r) s.length s caps k
  | .group i r, s, caps, k =>
    reM r s caps (fun s' caps' => k s' ((i, s.take (s.length - s'.length)) :: caps'))
  | .look r, s, caps, k => (reM r s caps (fun _ _ => k s caps))
  | .eos, s, caps, k => if s == [] || s == ['\n'] then k s caps else none

/-- The top-level success continuation: return the remaining input and the
captures. -/
def capsK : List Char → Caps → Option (List Char × Caps) :=
  fun s caps => some (s, caps)

/-- `re.search` scanning: try the pattern at each position from the left;
returns the text before the match, the text after it, and the captures. -/
def searchFromAux (r : RE) : List Char → List Char → Option (List Char × List Char × Caps)
  | s, acc =>
    match reM r s [] capsK with
    | some (rest, caps) => some (acc.reverse, rest, caps)
    | none =>
      match s with
      | [] => none
      | c :: t => searchFromAux r t (c :: acc)

/-- `re.search`, keeping only the captures. -/
def reSearchC (r : RE) (s : List Char) : Option Caps :=
  (searchFromAux r s []).map (fun x => x.2.2)

/-- `m.group(i)`: the most recent capture of group `i`. -/
def getGrp (caps : Caps) (i : Nat) : Option (List Char) :=
  (caps.find? (fun e => e.1 == i)).map (fun e => e.2)

/-- `re.finditer`/`re.findall`: non-overlapping matches, scanning left to
right, each next search starting where the previous match ended.  The fuel
argument (always instantiated with more than the input length, which bounds
the number of matches since every match here consumes input) makes the
recursion structural so that the kernel can evaluate it. -/
def findIterCAux (r : RE) : Nat → List Char → List Caps
  | 0, _ => []
  | fuel + 1, s =>
    match searchFromAux r s [] with
    | none => []
    | some (_pre, rest, caps) =>
      caps :: (if rest.length < s.length then findIterCAux r fuel rest else [])

/-- `re.finditer`/`re.findall` over the whole input. -/
def findIterC (r : RE) (s : List Char) : List Caps :=
  findIterCAux r (s.length + 1) s

/-- `re.split` (fuelled like `findIterCAux`): split the input at the
non-overlapping matches of a pattern (the source only splits on `\n\s*\n`,
which never matches empty text). -/
def reSplitAux (r : RE) : Nat → List Char → List (List Char)
  | 0, s => [s]
  | fuel + 1, s =>
    match searchFromAux r s [] with
    | none => [s]
    | some (pre, rest, _caps) =>
      pre :: (if rest.length < s.length then reSplitAux r fuel rest else [rest])

/-- `re.split` over the whole input. -/
def reSplit (r : RE) (s : List Char) : List (List Char) :=
  reSplitAux r (s.length + 1) s

/-- `re.sub(pattern, repl, s)` (fuelled like `findIterCAux`): replace every
non-overlapping match. -/
def reSubAllAux (r : RE) (repl : List Char) : Nat → List Char → List Char
  | 0, s => s
  | fuel + 1, s =>
    match searchFromAux r s [] with
    | none => s
    | some (pre, rest, _caps) =>
      pre ++ repl ++ (if rest.length < s.length then reSubAllAux r repl fuel rest else rest)

/-- `re.sub` over the whole input. -/
def reSubAll (r : RE) (repl : List Char) (s : List Char) : List Char :=
  reSubAllAux r repl (s.length + 1) s

/-- The capture-group indices occurring in a pattern. -/
def groupIdxs : RE → List Nat
  | .seq r1 r2 => groupIdxs r1 ++ groupIdxs r2
  | .alt r1 r2 => groupIdxs r1 ++ groupIdxs r2
  | .opt r => groupIdxs r
  | .starNE r => groupIdxs r
  | .group i r => i :: groupIdxs r
  | .look r => groupIdxs r
  | _ => []

/-- Right-nested sequencing of a pattern list (the last element is the tail of
the nest, so shared sub-patterns are preserved verbatim). -/
def cat : List RE → RE
  | [] => .eps
  | [r] => r
  | r :: rest => .seq r (cat rest)

/-- A case-insensitive literal word. -/
def strCI (s : String) : RE := cat (s.data.map RE.litCI)

/-! ## The patterns of `pdf_parser.py` -/

/-- `(20\d{2})` — `extract_year`, line 78. -/
def yearRE : RE := .group 1 (cat [.lit '2', .lit '0', .cls dCls, .cls dCls])

/-- `cumulative.*?(20\d{2})` with `IGNORECASE|DOTALL` —
`detect_cumulative_multiyear`, line 67. -/
def cumulRE : RE :=
  cat [strCI "cumulative", .lazyStarC anyCls,
       .group 1 (cat [.lit '2', .lit '0', .cls dCls, .cls dCls])]

/-- `week\s*[:\-]?\s*(\d+(?:\s*-\s*\d+)?)` with `IGNORECASE` —
`extract_week_info`, line 90. -/
def weekRE : RE :=
  cat [strCI "week", .starC pyWs, .opt (.cls colonDash), .starC pyWs,
       .group 1 (.seq (.plusC dCls)
         (.opt (cat [.starC pyWs, .lit '-', .starC pyWs, .plusC dCls])))]

/-- `epi\s*week\s*[:\-]?\s*(\d+(?:\s*-\s*\d+)?)` with `IGNORECASE` —
`extract_week_info`, line 95 (note that the tail of this pattern is exactly
`weekRE`). -/
def epiRE : RE := .seq (strCI "epi") (.seq (.starC pyWs) weekRE)

/-- The narrative highlight pattern of `parse_highlighted_section`, line 114:
`In\s+week\s*(?P<week>\d+).*?new\s+CT(?:\s+cases)?\s+is\s+(?P<total>\d+)`
`.*?reported\s+from.*?[–:-]\s*(?P<list>.+?)(?:[\n\.]|$)` with
`IGNORECASE|DOTALL`; groups week=1, total=2, list=3. -/
def narrRE (caseType : String) : RE :=
  cat [strCI "In", .plusC pyWs, strCI "week", .starC pyWs, .group 1 (.plusC dCls),
       .lazyStarC anyCls, strCI "new", .plusC pyWs, strCI caseType,
       .opt (.seq (.plusC pyWs) (strCI "cases")),
       .plusC pyWs, strCI "is", .plusC pyWs, .group 2 (.plusC dCls),
       .lazyStarC anyCls, strCI "reported", .plusC pyWs, strCI "from",
       .lazyStarC anyCls, .cls dashSet, .starC pyWs,
       .group 3 (.lazyPlusC anyCls), .alt (.cls termCls) .eos]

/-- `(?P<state>[A-Za-z\s]+)\s*\((?P<count>\d+)(?P<perc>%?)\)` — the per-item
pattern of `parse_highlighted_section`, line 132. -/
def itemRE : RE :=
  cat [.group 1 (.plusC alphaWs), .starC pyWs, .lit '(',
       .group 2 (.plusC dCls), .group 3 (.opt (.lit '%')), .lit ')']

/-- The aggregate pattern of `parse_global_value`, line 160:
`In\s+weeks?\s*(?P<week>[\d\-]+).*?(?P<total>\d+)\s+new\s+CT(?:\s+cases)?`
with `IGNORECASE|DOTALL`; groups week=1, total=2. -/
def globRE (caseType : String) : RE :=
  cat [strCI "In", .plusC pyWs, strCI "week", .opt (.litCI 's'), .starC pyWs,
       .group 1 (.plusC digitDash), .lazyStarC anyCls, .group 2 (.plusC dCls),
       .plusC pyWs, strCI "new", .plusC pyWs, strCI caseType,
       .opt (.seq (.plusC pyWs) (strCI "cases"))]

/-- `\d{1,3}(?:,\d{3})*|\d+` — a count with optional thousands separators. -/
def numAlt : RE :=
  .alt (.seq (.alt (cat [.cls dCls, .cls dCls, .cls dCls])
               (.alt (.seq (.cls dCls) (.cls dCls)) (.cls dCls)))
         (.starNE (cat [.lit ',', .cls dCls, .cls dCls, .cls dCls])))
       (.plusC dCls)

/-- `summary_pattern` of `parse_report`, lines 246-251 (`IGNORECASE`);
groups state=1, suspected=2, confirmed=3. -/
def summaryRE : RE :=
  cat [.group 1 (.plusC alphaWs), .plusC wcdCls,
       strCI "suspected", .starC pyWs, strCI "case", .opt (.litCI 's'),
       .opt (.cls colonDash), .starC pyWs, .group 2 numAlt,
       .plusC wscCls,
       strCI "confirmed", .starC pyWs, strCI "case", .opt (.litCI 's'),
       .opt (.cls colonDash), .starC pyWs, .group 3 numAlt]

/-- `table_pattern` of `parse_report`, lines 252-256 (anchored `^...$`,
applied with `re.match` so the `^` is the start of the line). -/
def tableRE : RE :=
  cat [.group 1 (.plusC alphaWs), .plusC commaWs, .group 2 numAlt,
       .plusC commaWs, .group 3 numAlt, .eos]

/-- `(\d+)(?=\.pdf$)` with `IGNORECASE` — the file-name week fallback of
`process_pdf_file`, line 370. -/
def fnameRE : RE :=
  .seq (.group 1 (.plusC dCls))
       (.look (cat [.lit '.', .litCI 'p', .litCI 'd', .litCI 'f', .eos]))

/-- `\n\s*\n` — the segment splitter of `parse_report`, line 244. -/
def blankRE : RE := cat [.lit '\n', .starC pyWs, .lit '\n']

/-- `\s+and\s+` with `IGNORECASE` — the connective normalizer of
`parse_highlighted_section`, line 127. -/
def andRE : RE :=
  cat [.plusC pyWs, .litCI 'a', .litCI 'n', .litCI 'd', .plusC pyWs]

/-! ## The data model and the extraction functions -/

/-- One output observation (`year, week, state, suspected, confirmed`). -/
structure Row where
  year : String
  week : String
  state : String
  suspected : Int
  confirmed : Int
deriving DecidableEq, Repr

/-- Nigeria's 36 states plus the FCT, in the order of the source's registry
(lines 34-40; note `"FCT"` comes last, after `"Zamfara"`). -/
def NIGERIA_STATES : List String :=
  ["Abia", "Adamawa", "Akwa Ibom", "Anambra", "Bauchi", "Bayelsa", "Benue", "Borno",
   "Cross River", "Delta", "Ebonyi", "Edo", "Ekiti", "Enugu", "Gombe", "Imo", "Jigawa",
   "Kaduna", "Kano", "Katsina", "Kebbi", "Kogi", "Kwara", "Lagos", "Nasarawa", "Niger",
   "Ogun", "Ondo", "Osun", "Oyo", "Plateau", "Rivers", "Sokoto", "Taraba", "Yobe",
   "Zamfara", "FCT"]

/-- `detect_cumulative_multiyear` (lines 61-71): `findall` of `cumulRE`, then
true iff the matches are nonempty with more than one distinct year. -/
def detect_cumulative_multiyear (segment : String) : Bool :=
  let found := (findIterC cumulRE segment.data).map
    (fun caps => String.mk ((getGrp caps 1).getD []))
  !found.isEmpty && found.eraseDups.length > 1

/-- `extract_year` (lines 73-82). -/
def extract_year (text : String) : String :=
  match reSearchC yearRE text.data with
  | some caps => String.mk ((getGrp caps 1).getD [])
  | none => ""

/-- `extract_week_info` (lines 84-99): the generic `week` pattern, then the
`epi week` fallback, then `"Unknown"`. -/
def extract_week_info (text : String) : String :=
  match reSearchC weekRE text.data with
  | some caps => String.mk (pyStrip ((getGrp caps 1).getD []))
  | none =>
    match reSearchC epiRE text.data with
    | some caps => String.mk (pyStrip ((getGrp caps 1).getD []))
    | none => "Unknown"

/-- The body of the item loop of `parse_highlighted_section` (lines 130-148):
match `itemRE` against one list item; on a `%` marker compute
`round(total*value/100)`, otherwise take the literal count; dictionary update
is modelled by prepending (lookups read the most recent binding). -/
def itemStep (total : Int) (m : List (String × Int)) (item : List Char) :
    List (String × Int) :=
  match reM itemRE item [] capsK with
  | none => m
  | some (_, caps) =>
    let state := String.mk (pyStrip ((getGrp caps 1).getD []))
    let countStr := (getGrp caps 2).getD []
    let perc := (getGrp caps 3).getD []
    if perc == ['%'] then
      let v : Int :=
        match intOfStr countStr with
        | some p => pyRound ((total * p : ℚ) / 100)
        | none => 0
      (state, v) :: m
    else
      (state, (intOfStr countStr).getD 0) :: m

/-- Python `dict.get(state, 0)` over the insertion-ordered model. -/
def mapGet (m : List (String × Int)) (k : String) : Int :=
  match m.find? (fun e => e.1 == k) with
  | some e => e.2
  | none => 0

/-- `parse_highlighted_section` (lines 104-150). -/
def parse_highlighted_section (text caseType : String) :
    Option String × Option Int × List (String × Int) :=
  match reSearchC (narrRE caseType) text.data with
  | none => (none, none, [])
  | some caps =>
    let week := String.mk (pyStrip ((getGrp caps 1).getD []))
    let total : Int := (intOfStr ((getGrp caps 2).getD [])).getD 0
    let stateList := pyRstripDot (pyStrip ((getGrp caps 3).getD []))
    let stateList := reSubAll andRE (", ".data) stateList
    let items := (splitOnChar ',' stateList).map pyStrip
    (some week, some total, items.foldl (itemStep total) [])

/-- `parse_global_value` (lines 152-171). -/
def parse_global_value (text caseType : String) : Option String × Option Int :=
  match reSearchC (globRE caseType) text.data with
  | none => (none, none)
  | some caps =>
    (some (String.mk (pyStrip ((getGrp caps 1).getD []))),
     some ((intOfStr ((getGrp caps 2).getD [])).getD 0))

/-- `parse_highlighted_data` (lines 173-215). -/
def parse_highlighted_data (text : String) : List Row :=
  let s := parse_highlighted_section text "suspected"
  let c := parse_highlighted_section text "confirmed"
  if !s.2.2.isEmpty || !c.2.2.isEmpty then
    let weekInfo :=
      if optTruthy s.1 then s.1.getD ""
      else if optTruthy c.1 then c.1.getD ""
      else extract_week_info text
    let year := extract_year text
    NIGERIA_STATES.map (fun st =>
      ⟨year, weekInfo, st, mapGet s.2.2 st, mapGet c.2.2 st⟩)
  else
    let gs := parse_global_value text "suspected"
    let gc := parse_global_value text "confirmed"
    if gs.2.isSome || gc.2.isSome then
      let weekInfo :=
        if optTruthy gs.1 then gs.1.getD ""
        else if optTruthy gc.1 then gc.1.getD ""
        else extract_week_info text
      [⟨extract_year text, weekInfo, "Overall", gs.2.getD 0, gc.2.getD 0⟩]
    else []

/-- One segment of the fallback loop of `parse_report` (lines 258-299):
cumulative segments are skipped; otherwise the labeled summary pattern is
tried, and only if it produced no match at all is the per-line table pattern
tried; conversion failures drop the individual match. -/
def segmentRows (reportYear weekInfo : String) (seg : List Char) : List Row :=
  if detect_cumulative_multiyear (String.mk seg) then []
  else
    let ms := findIterC summaryRE seg
    if !ms.isEmpty then
      ms.filterMap (fun caps =>
        let state := String.mk (pyStrip ((getGrp caps 1).getD []))
        match intOfStr (dropCommas ((getGrp caps 2).getD [])),
              intOfStr (dropCommas ((getGrp caps 3).getD [])) with
        | some su, some co => some ⟨reportYear, weekInfo, state, su, co⟩
        | _, _ => none)
    else
      ((pySplitLines seg).map pyStrip).filterMap (fun line =>
        match reM tableRE line [] capsK with
        | none => none
        | some (_, caps) =>
          let state := String.mk (pyStrip ((getGrp caps 1).getD []))
          match intOfStr (dropCommas ((getGrp caps 2).getD [])),
                intOfStr (dropCommas ((getGrp caps 3).getD [])) with
          | some su, some co => some ⟨reportYear, weekInfo, state, su, co⟩
          | _, _ => none)

/-- `parse_report` (lines 220-303). -/
def parse_report (text : String) : List Row :=
  let hl := parse_highlighted_data text
  if !hl.isEmpty then hl
  else
    let reportYear := extract_year text
    let weekInfo := extract_week_info text
    ((reSplit blankRE text.data).map (segmentRows reportYear weekInfo)).flatten

/-- The row validation of `process_pdf_file` (lines 346-350): a row is kept
when its state is truthy; suspected/confirmed are integers on every path of
the source, so the `is not None` tests always pass. -/
def validRows (text : String) : List Row :=
  (parse_report text).filter (fun r => !r.state.data.isEmpty)

/-- `len(valid_rows) == 1 and valid_rows[0]['state'] == "Overall"`. -/
def isSingleOverall (l : List Row) : Bool :=
  match l with
  | [r] => r.state == "Overall"
  | _ => false

/-- The registry-completion rows appended by `process_pdf_file`
(lines 353-364). -/
def missingRows (text : String) (valid : List Row) : List Row :=
  let found := valid.map (fun r => lowerL (pyStrip r.state.data))
  (NIGERIA_STATES.filter (fun st => !found.contains (lowerL st.data))).map
    (fun st => ⟨extract_year text, extract_week_info text, st, 0, 0⟩)

/-- The row list of `process_pdf_file` after validation and registry
completion (lines 344-364). -/
def completedRows (text : String) : List Row :=
  let valid := validRows text
  if isSingleOverall valid then valid else valid ++ missingRows text valid

/-- The file-name week fallback (lines 369-374) as a named function:
`re.search(r'(\d+)(?=\.pdf$)', file_path, re.IGNORECASE)`. -/
def weekFromFilename (filePath : String) : String :=
  match reSearchC fnameRE filePath.data with
  | some caps => String.mk ((getGrp caps 1).getD [])
  | none => "Unknown"

/-- `process_pdf_file` (lines 328-376), with the PDF-to-text conversion
out of scope: it takes the extracted text and the file name. -/
def process_pdf_file (text filePath : String) : List Row :=
  (completedRows text).map (fun r =>
    if r.week == "Unknown" then
      { r with week :=
          match reSearchC fnameRE filePath.data with
          | some caps => String.mk ((getGrp caps 1).getD [])
          | none => "Unknown" }
    else r)

/-! ## The consolidation sort (`mpox_parser.py`, `process_pdfs`) -/

/-- Lexicographic strict order on character lists — Python's `<` on strings
of code points. -/
def lexLt : List Char → List Char → Bool
  | [], [] => false
  | [], _ :: _ => true
  | _ :: _, [] => false
  | a :: as_, b :: bs =>
    if a < b then true else if b < a then false else lexLt as_ bs

/-- Lexicographic `≤` on character lists. -/
def lexLe : List Char → List Char → Bool
  | [], _ => true
  | _ :: _, [] => false
  | a :: as_, b :: bs =>
    if a < b then true else if b < a then false else lexLe as_ bs

/-- Python's tuple key `(row['year'], row['week'], row['state'])` compared
lexicographically (the sort key of `valid_data.sort` in `process_pdfs`,
`mpox_parser.py` line 157). -/
def keyLeB (r1 r2 : Row) : Bool :=
  if r1.year.data = r2.year.data then
    if r1.week.data = r2.week.data then lexLe r1.state.data r2.state.data
    else lexLt r1.week.data r2.week.data
  else lexLt r1.year.data r2.year.data

/-- The key order as a proposition. -/
def keyLeP (r1 r2 : Row) : Prop := keyLeB r1 r2 = true

instance : DecidableRel keyLeP :=
  fun a b => inferInstanceAs (Decidable (keyLeB a b = true))

/-- The consolidation sort applied to collected rows
(`valid_data.sort(key=lambda x: (x['year'], x['week'], x['state']))`,
`mpox_parser.py` lines 157-158; Python's stable sort modelled by the stable
`List.mergeSort`). -/
def sortRows (rows : List Row) : List Row := rows.mergeSort keyLeB

/-! ## Spec-side definition for the refinement claim -/

/-- Modelled from the spec / claim C10: the simplified week extractor that
applies only the generic case-insensitive `week` pattern and returns
`"Unknown"` on no match. -/
def simpleWeekInfo (text : String) : String :=
  match reSearchC weekRE text.data with
  | some caps => String.mk (pyStrip ((getGrp caps 1).getD []))
  | none => "Unknown"

/-! ## Shape predicates for the metadata extractors -/

/-- A year token as produced by `(20\d{2})`: exactly `"20"` followed by two
digits. -/
def IsYearToken (s : String) : Prop :=
  ∃ d1 d2, dCls d1 = true ∧ dCls d2 = true ∧ s.data = ['2', '0', d1, d2]

/-- A week token as produced by `(\d+(?:\s*-\s*\d+)?)`: a nonempty digit run,
optionally followed by a hyphen (with optional surrounding whitespace) and a
second nonempty digit run. -/
def IsWeekTokL (tok : List Char) : Prop :=
  ∃ d1 tail, tok = d1 ++ tail ∧ d1 ≠ [] ∧ (∀ c ∈ d1, dCls c = true) ∧
    (tail = [] ∨ ∃ w1 w2 d2, tail = w1 ++ '-' :: (w2 ++ d2) ∧
      (∀ c ∈ w1, pyWs c = true) ∧ (∀ c ∈ w2, pyWs c = true) ∧
      d2 ≠ [] ∧ (∀ c ∈ d2, dCls c = true))

/-! # Theorems -/

theorem reM_seq_eq {α : Type} (r1 r2 : RE) (s : List Char) (caps : Caps)
    (k : List Char → Caps → Option α) :
    reM (.seq r1 r2) s caps k = reM r1 s caps (fun s' caps' => reM r2 s' caps' k) :=
  rfl

theorem orElse_eq_some {α : Type} {a b : Option α} {v : α}
    (h : (a <|> b) = some v) : a = some v ∨ (a = none ∧ b = some v) := by
  cases a with
  | some x => left; simpa using h
  | none => right; simpa using h

theorem reM_lit_some {α : Type} {c : Char} {s : List Char} {caps : Caps}
    {k : List Char → Caps → Option α} {v : α}
    (h : reM (.lit c) s caps k = some v) :
    ∃ s', s = c :: s' ∧ k s' caps = some v := by
  cases s with
  | nil => simp [reM] at h
  | cons c' s' =>
    simp only [reM] at h
    by_cases hc : (c' == c) = true
    · rw [if_pos hc] at h
      exact ⟨s', by rw [eq_of_beq hc], h⟩
    · rw [if_neg hc] at h
      exact absurd h (by simp)

theorem reM_litCI_some {α : Type} {c : Char} {s : List Char} {caps : Caps}
    {k : List Char → Caps → Option α} {v : α}
    (h : reM (.litCI c) s caps k = some v) :
    ∃ c' s', s = c' :: s' ∧ c'.toLower = c.toLower ∧ k s' caps = some v := by
  cases s with
  | nil => simp [reM] at h
  | cons c' s' =>
    simp only [reM] at h
    by_cases hc : (c'.toLower == c.toLower) = true
    · rw [if_pos hc] at h
      exact ⟨c', s', rfl, eq_of_beq hc, h⟩
    · rw [if_neg hc] at h
      exact absurd h (by simp)

theorem reM_cls_some {α : Type} {p : Char → Bool} {s : List Char} {caps : Caps}
    {k : List Char → Caps → Option α} {v : α}
    (h : reM (.cls p) s caps k = some v) :
    ∃ c' s', s = c' :: s' ∧ p c' = true ∧ k s' caps = some v := by
  cases s with
  | nil => simp [reM] at h
  | cons c' s' =>
    simp only [reM] at h
    by_cases hc : p c' = true
    · rw [if_pos hc] at h
      exact ⟨c', s', rfl, hc, h⟩
    · rw [if_neg hc] at h
      exact absurd h (by simp)

theorem gStar_some {α : Type} {p : Char → Bool} :
    ∀ {s : List Char} {caps : Caps} {k : List Char → Caps → Option α} {v : α},
    gStar p s caps k = some v →
    ∃ t s', s = t ++ s' ∧ (∀ c ∈ t, p c = true) ∧ k s' caps = some v := by
  intro s
  induction s with
  | nil =>
    intro caps k v h
    exact ⟨[], [], rfl, by simp, by simpa [gStar] using h⟩
  | cons c rest ih =>
    intro caps k v h
    simp only [gStar] at h
    by_cases hc : p c = true
    · rw [if_pos hc] at h
      rcases orElse_eq_some h with h1 | ⟨_, h2⟩
      · obtain ⟨t, s', heq, hall, hk⟩ := ih h1
        exact ⟨c :: t, s', by rw [heq]; rfl, by
          intro x hx
          rcases List.mem_cons.1 hx with rfl | hx
          · exact hc
          · exact hall x hx, hk⟩
      · exact ⟨[], c :: rest, rfl, by simp, h2⟩
    · rw [if_neg hc] at h
      exact ⟨[], c :: rest, rfl, by simp, h⟩

theorem lStar_some {α : Type} {p : Char → Bool} :
    ∀ {s : List Char} {caps : Caps} {k : List Char → Caps → Option α} {v : α},
    lStar p s caps k = some v →
    ∃ t s', s = t ++ s' ∧ (∀ c ∈ t, p c = true) ∧ k s' caps = some v := by
  intro s
  induction s with
  | nil =>
    intro caps k v h
    simp only [lStar] at h
    rcases orElse_eq_some h with h1 | ⟨_, h2⟩
    · exact ⟨[], [], rfl, by simp, h1⟩
    · exact absurd h2 (by simp)
  | cons c rest ih =>
    intro caps k v h
    simp only [lStar] at h
    rcases orElse_eq_some h with h1 | ⟨_, h2⟩
    · exact ⟨[], c :: rest, rfl, by simp, h1⟩
    · by_cases hc : p c = true
      · rw [if_pos hc] at h2
        obtain ⟨t, s', heq, hall, hk⟩ := ih h2
        exact ⟨c :: t, s', by rw [heq]; rfl, by
          intro x hx
          rcases List.mem_cons.1 hx with rfl | hx
          · exact hc
          · exact hall x hx, hk⟩
      · rw [if_neg hc] at h2
        exact absurd h2 (by simp)

theorem reM_starC_some {α : Type} {p : Char → Bool} {s : List Char} {caps : Caps}
    {k : List Char → Caps → Option α} {v : α}
    (h : reM (.starC p) s caps k = some v) :
    ∃ t s', s = t ++ s' ∧ (∀ c ∈ t, p c = true) ∧ k s' caps = some v :=
  gStar_some (by simpa [reM] using h)

theorem reM_plusC_some {α : Type} {p : Char → Bool} {s : List Char} {caps : Caps}
    {k : List Char → Caps → Option α} {v : α}
    (h : reM (.plusC p) s caps k = some v) :
    ∃ t s', s = t ++ s' ∧ t ≠ [] ∧ (∀ c ∈ t, p c = true) ∧ k s' caps = some v := by
  cases s with
  | nil => simp [reM] at h
  | cons c rest =>
    simp only [reM] at h
    by_cases hc : p c = true
    · rw [if_pos hc] at h
      obtain ⟨t, s', heq, hall, hk⟩ := gStar_some h
      exact ⟨c :: t, s', by rw [heq]; rfl, by simp, by
        intro x hx
        rcases List.mem_cons.1 hx with rfl | hx
        · exact hc
        · exact hall x hx, hk⟩
    · rw [if_neg hc] at h
      exact absurd h (by simp)

theorem reM_lazyStarC_some {α : Type} {p : Char → Bool} {s : List Char} {caps : Caps}
    {k : List Char → Caps → Option α} {v : α}
    (h : reM (.lazyStarC p) s caps k = some v) :
    ∃ t s', s = t ++ s' ∧ (∀ c ∈ t, p c = true) ∧ k s' caps = some v :=
  lStar_some (by simpa [reM] using h)

theorem reM_lazyPlusC_some {α : Type} {p : Char → Bool} {s : List Char} {caps : Caps}
    {k : List Char → Caps → Option α} {v : α}
    (h : reM (.lazyPlusC p) s caps k = some v) :
    ∃ t s', s = t ++ s' ∧ t ≠ [] ∧ (∀ c ∈ t, p c = true) ∧ k s' caps = some v := by
  cases s with
  | nil => simp [reM] at h
  | cons c rest =>
    simp only [reM] at h
    by_cases hc : p c = true
    · rw [if_pos hc] at h
      obtain ⟨t, s', heq, hall, hk⟩ := lStar_some h
      exact ⟨c :: t, s', by rw [heq]; rfl, by simp, by
        intro x hx
        rcases List.mem_cons.1 hx with rfl | hx
        · exact hc
        · exact hall x hx, hk⟩
    · rw [if_neg hc] at h
      exact absurd h (by simp)

theorem reM_opt_some {α : Type} {r : RE} {s : List Char} {caps : Caps}
    {k : List Char → Caps → Option α} {v : α}
    (h : reM (.opt r) s caps k = some v) :
    reM r s caps k = some v ∨ k s caps = some v := by
  simp only [reM] at h
  rcases orElse_eq_some h with h1 | ⟨_, h2⟩
  · exact Or.inl h1
  · exact Or.inr h2

theorem reM_alt_some {α : Type} {r1 r2 : RE} {s : List Char} {caps : Caps}
    {k : List Char → Caps → Option α} {v : α}
    (h : reM (.alt r1 r2) s caps k = some v) :
    reM r1 s caps k = some v ∨ reM r2 s caps k = some v := by
  simp only [reM] at h
  rcases orElse_eq_some h with h1 | ⟨_, h2⟩
  · exact Or.inl h1
  · exact Or.inr h2

theorem reM_eos_some {α : Type} {s : List Char} {caps : Caps}
    {k : List Char → Caps → Option α} {v : α}
    (h : reM .eos s caps k = some v) : k s caps = some v := by
  simp only [reM] at h
  by_cases hc : (s == [] || s == ['\n']) = true
  · rwa [if_pos hc] at h
  · rw [if_neg hc] at h
    exact absurd h (by simp)

theorem reM_catCI_some {α : Type} :
    ∀ (l : List Char) {s : List Char} {caps : Caps} {k : List Char → Caps → Option α} {v : α},
    reM (cat (l.map RE.litCI)) s caps k = some v →
    ∃ s', s' <:+ s ∧ k s' caps = some v := by
  intro l
  induction l with
  | nil =>
    intro s caps k v h
    exact ⟨s, List.suffix_refl s, by simpa [cat, reM] using h⟩
  | cons c rest ih =>
    intro s caps k v h
    cases rest with
    | nil =>
      simp only [List.map_cons, List.map_nil, cat] at h
      obtain ⟨c', s', rfl, _, hk⟩ := reM_litCI_some h
      exact ⟨s', List.suffix_cons c' s', hk⟩
    | cons c2 r2 =>
      simp only [List.map_cons, cat] at h
      rw [reM_seq_eq] at h
      obtain ⟨c', s', rfl, _, hk⟩ := reM_litCI_some h
      obtain ⟨s2, hsuf, hk2⟩ := ih hk
      exact ⟨s2, hsuf.trans (List.suffix_cons c' s'), hk2⟩

theorem reM_strCI_some {α : Type} {w : String} {s : List Char} {caps : Caps}
    {k : List Char → Caps → Option α} {v : α}
    (h : reM (strCI w) s caps k = some v) :
    ∃ s', s' <:+ s ∧ k s' caps = some v :=
  reM_catCI_some w.data h

theorem starNEAux_caps {α : Type} {r : RE}
    (IH : ∀ {s : List Char} {caps : Caps} {k : List Char → Caps → Option α} {v : α},
      reM r s caps k = some v →
      ∃ s' ext, (∀ e ∈ ext, e.1 ∈ groupIdxs r) ∧ k s' (ext ++ caps) = some v) :
    ∀ (fuel : Nat) {s : List Char} {caps : Caps} {k : List Char → Caps → Option α} {v : α},
    starNEAux (reM r) fuel s caps k = some v →
    ∃ s' ext, (∀ e ∈ ext, e.1 ∈ groupIdxs r) ∧ k s' (ext ++ caps) = some v := by
  intro fuel
  induction fuel with
  | zero =>
    intro s caps k v h
    exact ⟨s, [], by simp, by simpa [starNEAux] using h⟩
  | succ n ih =>
    intro s caps k v h
    simp only [starNEAux] at h
    rcases orElse_eq_some h with h1 | ⟨_, h2⟩
    · obtain ⟨s1, ext1, hidx1, hk1⟩ := IH h1
      by_cases hlen : s1.length < s.length
      · rw [if_pos hlen] at hk1
        obtain ⟨s2, ext2, hidx2, hk2⟩ := ih hk1
        refine ⟨s2, ext2 ++ ext1, ?_, by rw [List.append_assoc]; exact hk2⟩
        intro e he
        rcases List.mem_append.1 he with he | he
        · exact hidx2 e he
        · exact hidx1 e he
      · rw [if_neg hlen] at hk1
        exact absurd hk1 (by simp)
    · exact ⟨s, [], by simp, h2⟩

theorem reM_caps_mono {α : Type} (r : RE) :
    ∀ {s : List Char} {caps : Caps} {k : List Char → Caps → Option α} {v : α},
    reM r s caps k = some v →
    ∃ s' ext, (∀ e ∈ ext, e.1 ∈ groupIdxs r) ∧ k s' (ext ++ caps) = some v := by
  induction r with
  | eps =>
    intro s caps k v h
    exact ⟨s, [], by simp, by simpa [reM] using h⟩
  | lit c =>
    intro s caps k v h
    obtain ⟨s', _, hk⟩ := reM_lit_some h
    exact ⟨s', [], by simp, hk⟩
  | litCI c =>
    intro s caps k v h
    obtain ⟨c', s', _, _, hk⟩ := reM_litCI_some h
    exact ⟨s', [], by simp, hk⟩
  | cls p =>
    intro s caps k v h
    obtain ⟨c', s', _, _, hk⟩ := reM_cls_some h
    exact ⟨s', [], by simp, hk⟩
  | seq r1 r2 ih1 ih2 =>
    intro s caps k v h
    rw [reM_seq_eq] at h
    obtain ⟨s1, ext1, hidx1, hk1⟩ := ih1 h
    obtain ⟨s2, ext2, hidx2, hk2⟩ := ih2 hk1
    refine ⟨s2, ext2 ++ ext1, ?_, by rw [List.append_assoc]; exact hk2⟩
    intro e he
    simp only [groupIdxs, List.mem_append]
    rcases List.mem_append.1 he with he | he
    · exact Or.inr (hidx2 e he)
    · exact Or.inl (hidx1 e he)
  | alt r1 r2 ih1 ih2 =>
    intro s caps k v h
    rcases reM_alt_some h with h1 | h2
    · obtain ⟨s', ext, hidx, hk⟩ := ih1 h1
      exact ⟨s', ext, fun e he => by
        simp only [groupIdxs, List.mem_append]; exact Or.inl (hidx e he), hk⟩
    · obtain ⟨s', ext, hidx, hk⟩ := ih2 h2
      exact ⟨s', ext, fun e he => by
        simp only [groupIdxs, List.mem_append]; exact Or.inr (hidx e he), hk⟩
  | opt r ih =>
    intro s caps k v h
    rcases reM_opt_some h with h1 | h2
    · obtain ⟨s', ext, hidx, hk⟩ := ih h1
      exact ⟨s', ext, by simpa [groupIdxs] using hidx, hk⟩
    · exact ⟨s, [], by simp, h2⟩
  | starC p =>
    intro s caps k v h
    obtain ⟨t, s', _, _, hk⟩ := reM_starC_some h
    exact ⟨s', [], by simp, hk⟩
  | plusC p =>
    intro s caps k v h
    obtain ⟨t, s', _, _, _, hk⟩ := reM_plusC_some h
    exact ⟨s', [], by simp, hk⟩
  | lazyStarC p =>
    intro s caps k v h
    obtain ⟨t, s', _, _, hk⟩ := reM_lazyStarC_some h
    exact ⟨s', [], by simp, hk⟩
  | lazyPlusC p =>
    intro s caps k v h
    obtain ⟨t, s', _, _, _, hk⟩ := reM_lazyPlusC_some h
    exact ⟨s', [], by simp, hk⟩
  | starNE r ih =>
    intro s caps k v h
    simp only [reM] at h
    obtain ⟨s', ext, hidx, hk⟩ := starNEAux_caps (fun {s caps k v} h => ih h) s.length h
    exact ⟨s', ext, by simpa [groupIdxs] using hidx, hk⟩
  | group i r ih =>
    intro s caps k v h
    simp only [reM] at h
    obtain ⟨s', ext, hidx, hk⟩ := ih h
    refine ⟨s', (i, s.take (s.length - s'.length)) :: ext, ?_, hk⟩
    intro e he
    rcases List.mem_cons.1 he with rfl | he
    · simp [groupIdxs]
    · simp only [groupIdxs, List.mem_cons]
      exact Or.inr (hidx e he)
  | look r ih =>
    intro s caps k v h
    simp only [reM] at h
    obtain ⟨s', ext, hidx, hk⟩ := ih h
    exact ⟨s, [], by simp, hk⟩
  | eos =>
    intro s caps k v h
    exact ⟨s, [], by simp, reM_eos_some h⟩

theorem reM_group_eq {α : Type} (i : Nat) (r : RE) (s : List Char) (caps : Caps)
    (k : List Char → Caps → Option α) :
    reM (.group i r) s caps k =
      reM r s caps (fun s' caps' => k s' ((i, s.take (s.length - s'.length)) :: caps')) :=
  rfl

theorem take_consumed (u v : List Char) :
    (u ++ v).take ((u ++ v).length - v.length) = u := by
  rw [List.length_append, Nat.add_sub_cancel]
  exact List.take_left u v

theorem searchFromAux_sound {r : RE} :
    ∀ {s acc pre rest : List Char} {caps : Caps},
    searchFromAux r s acc = some (pre, rest, caps) →
    ∃ t, t <:+ s ∧ reM r t [] capsK = some (rest, caps) := by
  intro s
  induction s with
  | nil =>
    intro acc pre rest caps h
    rw [searchFromAux] at h
    cases hm : reM r [] ([] : Caps) capsK with
    | some val =>
      rw [hm] at h
      obtain ⟨rest0, caps0⟩ := val
      simp only [Option.some.injEq, Prod.mk.injEq] at h
      exact ⟨[], List.suffix_refl [], by rw [hm, h.2.1, h.2.2]⟩
    | none =>
      rw [hm] at h
      simp at h
  | cons c t ih =>
    intro acc pre rest caps h
    rw [searchFromAux] at h
    cases hm : reM r (c :: t) ([] : Caps) capsK with
    | some val =>
      rw [hm] at h
      obtain ⟨rest0, caps0⟩ := val
      simp only [Option.some.injEq, Prod.mk.injEq] at h
      exact ⟨c :: t, List.suffix_refl _, by rw [hm, h.2.1, h.2.2]⟩
    | none =>
      rw [hm] at h
      obtain ⟨u, hsuf, hm2⟩ := ih h
      exact ⟨u, hsuf.trans (List.suffix_cons c t), hm2⟩

theorem searchFromAux_isSome {r : RE} :
    ∀ {s acc t : List Char}, t <:+ s → (reM r t [] capsK).isSome →
    (searchFromAux r s acc).isSome := by
  intro s
  induction s with
  | nil =>
    intro acc t hsuf hm
    have ht : t = [] := List.suffix_nil.1 hsuf
    subst ht
    rw [searchFromAux]
    cases hm' : reM r [] ([] : Caps) capsK with
    | some val => simp
    | none => rw [hm'] at hm; simp at hm
  | cons c t2 ih =>
    intro acc t hsuf hm
    rw [searchFromAux]
    cases hm0 : reM r (c :: t2) ([] : Caps) capsK with
    | some val => simp
    | none =>
      rcases List.suffix_cons_iff.1 hsuf with rfl | hsuf2
      · rw [hm0] at hm; simp at hm
      · simpa using ih hsuf2 hm

theorem reSearchC_caps {r : RE} {s : List Char} {caps : Caps} {P : Caps → Prop}
    (H : ∀ t rest caps', reM r t [] capsK = some (rest, caps') → P caps')
    (h : reSearchC r s = some caps) : P caps := by
  unfold reSearchC at h
  cases hs : searchFromAux r s [] with
  | none => rw [hs] at h; simp at h
  | some val =>
    rw [hs] at h
    obtain ⟨pre, rest, caps'⟩ := val
    simp only [Option.map_some', Option.some.injEq] at h
    obtain ⟨t, _, hm⟩ := searchFromAux_sound hs
    exact h ▸ H t rest caps' hm

theorem find?_append_none {α : Type} {p : α → Bool} :
    ∀ {l1 l2 : List α}, l1.find? p = none → (l1 ++ l2).find? p = l2.find? p := by
  intro l1
  induction l1 with
  | nil => intro l2 _; rfl
  | cons x xs ih =>
    intro l2 h
    rw [List.find?_cons] at h
    cases hx : p x with
    | true => rw [hx] at h; simp at h
    | false =>
      rw [hx] at h
      rw [List.cons_append, List.find?_cons, hx]
      simpa using ih (by simpa using h)

theorem groupIdxs_catCI : ∀ (l : List Char), groupIdxs (cat (l.map RE.litCI)) = [] := by
  intro l
  induction l with
  | nil => rfl
  | cons c rest ih =>
    cases rest with
    | nil => rfl
    | cons c2 r2 =>
      simp only [List.map_cons, cat, groupIdxs] at ih ⊢
      simpa using ih

theorem yearRE_capsK :
    ∀ {t rest : List Char} {caps : Caps},
    reM yearRE t [] capsK = some (rest, caps) →
    ∃ d1 d2, dCls d1 = true ∧ dCls d2 = true ∧ caps = [(1, ['2', '0', d1, d2])] := by
  intro t rest caps h
  simp only [yearRE, cat] at h
  rw [reM_group_eq] at h
  rw [reM_seq_eq] at h
  obtain ⟨s1, heq1, h1⟩ := reM_lit_some h
  rw [reM_seq_eq] at h1
  obtain ⟨s2, heq2, h2⟩ := reM_lit_some h1
  rw [reM_seq_eq] at h2
  obtain ⟨d1, s3, heq3, hd1, h3⟩ := reM_cls_some h2
  obtain ⟨d2, s4, heq4, hd2, h4⟩ := reM_cls_some h3
  subst heq4; subst heq3; subst heq2; subst heq1
  rw [(by rfl : ('2' :: '0' :: d1 :: d2 :: s4 : List Char) = ['2', '0', d1, d2] ++ s4),
      take_consumed] at h4
  simp only [capsK, Option.some.injEq, Prod.mk.injEq] at h4
  exact ⟨d1, d2, hd1, hd2, h4.2.symm⟩

theorem weekGroup_capsK :
    ∀ {t rest : List Char} {caps : Caps},
    reM (.group 1 (.seq (.plusC dCls)
        (.opt (cat [.starC pyWs, .lit '-', .starC pyWs, .plusC dCls]))))
      t [] capsK = some (rest, caps) →
    ∃ tok, caps = [(1, tok)] ∧ IsWeekTokL tok := by
  intro t rest caps h
  rw [reM_group_eq] at h
  rw [reM_seq_eq] at h
  obtain ⟨d1, s1, heq1, hne1, hall1, hk1⟩ := reM_plusC_some h
  rcases reM_opt_some hk1 with hin | hskip
  · simp only [cat] at hin
    rw [reM_seq_eq] at hin
    obtain ⟨w1, s2, heq2, hallw1, hk2⟩ := reM_starC_some hin
    rw [reM_seq_eq] at hk2
    obtain ⟨s3, heq3, hk3⟩ := reM_lit_some hk2
    rw [reM_seq_eq] at hk3
    obtain ⟨w2, s4, heq4, hallw2, hk4⟩ := reM_starC_some hk3
    obtain ⟨d2, s5, heq5, hne2, hall2, hk5⟩ := reM_plusC_some hk4
    subst heq5; subst heq4; subst heq3; subst heq2; subst heq1
    rw [(by simp : (d1 ++ (w1 ++ '-' :: (w2 ++ (d2 ++ s5))) : List Char) =
          (d1 ++ (w1 ++ '-' :: (w2 ++ d2))) ++ s5),
        take_consumed] at hk5
    simp only [capsK, Option.some.injEq, Prod.mk.injEq] at hk5
    refine ⟨d1 ++ (w1 ++ '-' :: (w2 ++ d2)), hk5.2.symm,
      d1, w1 ++ '-' :: (w2 ++ d2), rfl, hne1, hall1,
      Or.inr ⟨w1, w2, d2, rfl, hallw1, hallw2, hne2, hall2⟩⟩
  · subst heq1
    rw [take_consumed] at hskip
    simp only [capsK, Option.some.injEq, Prod.mk.injEq] at hskip
    exact ⟨d1, hskip.2.symm, d1, [], (List.append_nil d1).symm, hne1, hall1, Or.inl rfl⟩

theorem weekRE_capsK :
    ∀ {t rest : List Char} {caps : Caps},
    reM weekRE t [] capsK = some (rest, caps) →
    ∃ tok, caps = [(1, tok)] ∧ IsWeekTokL tok := by
  intro t rest caps h
  simp only [weekRE, cat] at h
  rw [reM_seq_eq] at h
  obtain ⟨s1, _, h1⟩ := reM_strCI_some h
  rw [reM_seq_eq] at h1
  obtain ⟨w0, s2, _, _, h2⟩ := reM_starC_some h1
  rw [reM_seq_eq] at h2
  have h3 : ∃ s3, reM (.seq (.starC pyWs) (.group 1 (.seq (.plusC dCls)
      (.opt (.seq (.starC pyWs) (.seq (.lit '-') (.seq (.starC pyWs) (.plusC dCls)))))))
      ) s3 [] capsK = some (rest, caps) := by
    rcases reM_opt_some h2 with hin | hskip
    · obtain ⟨c0, s3, _, _, hk⟩ := reM_cls_some hin
      exact ⟨s3, hk⟩
    · exact ⟨s2, hskip⟩
  obtain ⟨s3, h3⟩ := h3
  rw [reM_seq_eq] at h3
  obtain ⟨w1, s4, _, _, h4⟩ := reM_starC_some h3
  exact weekGroup_capsK (by simpa [cat] using h4)

theorem epiRE_to_week {t : List Char} {v : List Char × Caps}
    (h : reM epiRE t [] capsK = some v) :
    ∃ t2, t2 <:+ t ∧ reM weekRE t2 [] capsK = some v := by
  unfold epiRE at h
  rw [reM_seq_eq] at h
  obtain ⟨s1, hsuf1, h1⟩ := reM_strCI_some h
  rw [reM_seq_eq] at h1
  obtain ⟨w0, s2, heq, _, h2⟩ := reM_starC_some h1
  exact ⟨s2, List.IsSuffix.trans ⟨w0, heq.symm⟩ hsuf1, h2⟩

theorem narrRE_week_caps {ct : String} :
    ∀ {t rest : List Char} {caps : Caps},
    reM (narrRE ct) t [] capsK = some (rest, caps) →
    ∃ tok, getGrp caps 1 = some tok ∧ tok ≠ [] ∧ (∀ c ∈ tok, dCls c = true) := by
  intro t rest caps h
  simp only [narrRE, cat] at h
  rw [reM_seq_eq] at h
  obtain ⟨s1, _, h1⟩ := reM_strCI_some h
  rw [reM_seq_eq] at h1
  obtain ⟨p1, s2, _, _, _, h2⟩ := reM_plusC_some h1
  rw [reM_seq_eq] at h2
  obtain ⟨s3, _, h3⟩ := reM_strCI_some h2
  rw [reM_seq_eq] at h3
  obtain ⟨w0, s4, _, _, h4⟩ := reM_starC_some h3
  rw [reM_seq_eq] at h4
  rw [reM_group_eq] at h4
  obtain ⟨tok0, s5, heq, hne, hall, hk⟩ := reM_plusC_some h4
  subst heq
  rw [take_consumed] at hk
  obtain ⟨s6, ext, hidx, hkk⟩ := reM_caps_mono _ hk
  simp only [capsK, Option.some.injEq, Prod.mk.injEq] at hkk
  obtain ⟨-, hcaps⟩ := hkk
  subst hcaps
  refine ⟨tok0, ?_, hne, hall⟩
  have hnone : ext.find? (fun e => e.1 == 1) = none := by
    rw [List.find?_eq_none]
    intro e he
    have h23 : e.1 ∈ ([2, 3] : List Nat) := by
      have := hidx e he
      simpa [groupIdxs, cat, strCI, groupIdxs_catCI] using this
    simp only [beq_iff_eq]
    rcases List.mem_cons.1 h23 with h2 | h3
    · omega
    · simp only [List.mem_cons, List.not_mem_nil, or_false] at h3
      omega
  unfold getGrp
  rw [find?_append_none hnone]
  simp [List.find?]

theorem pyWs_of_digit {c : Char} (h : dCls c = true) : pyWs c = false := by
  by_contra hws
  have ht : pyWs c = true := by
    cases hpw : pyWs c
    · exact absurd hpw hws
    · rfl
  simp only [pyWs, Bool.or_eq_true, beq_iff_eq] at ht
  rcases ht with ((((h1 | h1) | h1) | h1) | h1) | h1 <;> subst h1 <;>
    exact absurd h (by decide)

theorem dropWhile_cons_neg {α : Type} {p : α → Bool} {x : α} {xs : List α}
    (h : p x = false) : (x :: xs).dropWhile p = x :: xs := by
  simp [List.dropWhile_cons, h]

theorem pyStrip_eq_self_of {l : List Char}
    (hh : ∀ c, l.head? = some c → pyWs c = false)
    (hl : ∀ c, l.getLast? = some c → pyWs c = false) : pyStrip l = l := by
  cases l with
  | nil => rfl
  | cons x xs =>
    unfold pyStrip
    rw [dropWhile_cons_neg (hh x rfl)]
    cases hr : (x :: xs).reverse with
    | nil => exact absurd hr (by simp)
    | cons y ys =>
      have hy : (x :: xs).getLast? = some y := by
        rw [← List.head?_reverse, hr]; rfl
      rw [dropWhile_cons_neg (hl y hy), ← hr, List.reverse_reverse]

theorem pyStrip_weektok {tok : List Char} (h : IsWeekTokL tok) : pyStrip tok = tok := by
  obtain ⟨d1, tail, rfl, hne, hall, htail⟩ := h
  apply pyStrip_eq_self_of
  · intro c hc
    cases d1 with
    | nil => exact absurd rfl hne
    | cons a as =>
      simp only [List.cons_append, List.head?_cons, Option.some.injEq] at hc
      exact hc ▸ pyWs_of_digit (hall a (by simp))
  · intro c hc
    rcases htail with rfl | ⟨w1, w2, d2, rfl, _, _, hne2, hall2⟩
    · rw [List.append_nil] at hc
      obtain ⟨h', rfl⟩ := List.mem_getLast?_eq_getLast (by simp [hc] : c ∈ d1.getLast?)
      exact pyWs_of_digit (hall _ (List.getLast_mem h'))
    · rw [List.getLast?_append_of_ne_nil _ (by simp)] at hc
      rw [List.getLast?_append_of_ne_nil _ (by simp)] at hc
      rw [(by simp : ('-' :: (w2 ++ d2) : List Char) = ('-' :: w2) ++ d2),
          List.getLast?_append_of_ne_nil _ hne2] at hc
      obtain ⟨h', rfl⟩ := List.mem_getLast?_eq_getLast (by simp [hc] : c ∈ d2.getLast?)
      exact pyWs_of_digit (hall2 _ (List.getLast_mem h'))

theorem pyStrip_digits {tok : List Char} (hne : tok ≠ [])
    (hall : ∀ c ∈ tok, dCls c = true) : pyStrip tok = tok := by
  apply pyStrip_eq_self_of
  · intro c hc
    cases tok with
    | nil => exact absurd rfl hne
    | cons a as =>
      simp only [List.head?_cons, Option.some.injEq] at hc
      exact hc ▸ pyWs_of_digit (hall a (by simp))
  · intro c hc
    obtain ⟨h', rfl⟩ := List.mem_getLast?_eq_getLast (by simp [hc] : c ∈ tok.getLast?)
    exact pyWs_of_digit (hall _ (List.getLast_mem h'))

theorem section_week_digits {text ct : String} {w : String} {tot : Option Int}
    {m : List (String × Int)}
    (h : parse_highlighted_section text ct = (some w, tot, m)) : w.data ≠ [] := by
  unfold parse_highlighted_section at h
  cases hs : reSearchC (narrRE ct) text.data with
  | none => rw [hs] at h; simp at h
  | some caps =>
    rw [hs] at h
    have hchar := reSearchC_caps
      (P := fun caps => ∃ tok, getGrp caps 1 = some tok ∧ tok ≠ [] ∧
        ∀ c ∈ tok, dCls c = true)
      (fun t rest caps' hm => narrRE_week_caps hm) hs
    obtain ⟨tok, hg, hne, hall⟩ := hchar
    simp only [Prod.mk.injEq, Option.some.injEq] at h
    obtain ⟨hw, -, -⟩ := h
    rw [← hw, hg]
    simpa [pyStrip_digits hne hall] using hne

/-- C10: the dedicated "epi week" fallback branch of `extract_week_info` is
unreachable — for every input the function agrees with the simplified
extractor that applies only the generic case-insensitive `week` pattern
(any text matched by the `epi week` pattern contains a position at which the
generic `week` pattern already matches). -/
theorem c10_week_extractor_refinement (text : String) :
    extract_week_info text = simpleWeekInfo text := by
  unfold extract_week_info simpleWeekInfo
  cases hw : reSearchC weekRE text.data with
  | some caps => rfl
  | none =>
    cases he : reSearchC epiRE text.data with
    | none => rfl
    | some caps =>
      exfalso
      unfold reSearchC at he hw
      cases hs : searchFromAux epiRE text.data [] with
      | none => rw [hs] at he; simp at he
      | some val =>
        obtain ⟨pre, rest, caps'⟩ := val
        obtain ⟨t, hsuf, hm⟩ := searchFromAux_sound hs
        obtain ⟨t2, hsuf2, hm2⟩ := epiRE_to_week hm
        have hsome : (searchFromAux weekRE text.data []).isSome :=
          searchFromAux_isSome (hsuf2.trans hsuf) (by simp [hm2])
        cases hsw : searchFromAux weekRE text.data [] with
        | none => rw [hsw] at hsome; simp at hsome
        | some v2 => rw [hsw] at hw; simp at hw

/-- C8: the metadata extractors are total functions of their string input:
`extract_year` returns a well-formed year token or the empty string, and
`extract_week_info` returns a well-formed week token or `"Unknown"`; a failed
lookup is represented by the empty/`"Unknown"` value (in this embedding both
functions are total Lean functions, so no exception is possible). -/
theorem c8_metadata_extractors_total (text : String) :
    (extract_year text = "" ∨ IsYearToken (extract_year text)) ∧
    (extract_week_info text = "Unknown" ∨ IsWeekTokL (extract_week_info text).data) := by
  constructor
  · unfold extract_year
    cases hy : reSearchC yearRE text.data with
    | none => exact Or.inl rfl
    | some caps =>
      right
      have hchar := reSearchC_caps
        (P := fun caps => ∃ d1 d2, dCls d1 = true ∧ dCls d2 = true ∧
          caps = [(1, ['2', '0', d1, d2])])
        (fun t rest caps' hm => yearRE_capsK hm) hy
      obtain ⟨d1, d2, hd1, hd2, rfl⟩ := hchar
      exact ⟨d1, d2, hd1, hd2, by simp [getGrp, List.find?]⟩
  · unfold extract_week_info
    cases hw : reSearchC weekRE text.data with
    | some caps =>
      right
      have hchar := reSearchC_caps
        (P := fun caps => ∃ tok, caps = [(1, tok)] ∧ IsWeekTokL tok)
        (fun t rest caps' hm => weekRE_capsK hm) hw
      obtain ⟨tok, rfl, htok⟩ := hchar
      simpa [getGrp, List.find?, pyStrip_weektok htok] using htok
    | none =>
      cases he : reSearchC epiRE text.data with
      | none => exact Or.inl rfl
      | some caps =>
        right
        have hchar := reSearchC_caps
          (P := fun caps => ∃ tok, caps = [(1, tok)] ∧ IsWeekTokL tok)
          (fun t rest caps' hm => by
            obtain ⟨t2, _, hm2⟩ := epiRE_to_week hm
            exact weekRE_capsK hm2) he
        obtain ⟨tok, rfl, htok⟩ := hchar
        simpa [getGrp, List.find?, pyStrip_weektok htok] using htok

/-- C3: whenever at least one of the suspected/confirmed narrative mappings is
nonempty, `parse_highlighted_data` returns exactly one row per registry
region, each row pulling its suspected/confirmed value from the respective
mapping with 0 when the region is absent, and the week taken from the
suspected sentence if it matched, else the confirmed sentence, else the
generic metadata week extraction. -/
theorem c3_narrative_breakdown (text : String) (sw cw : Option String)
    (st ct : Option Int) (sm cm : List (String × Int))
    (hs : parse_highlighted_section text "suspected" = (sw, st, sm))
    (hc : parse_highlighted_section text "confirmed" = (cw, ct, cm))
    (hne : sm ≠ [] ∨ cm ≠ []) :
    parse_highlighted_data text =
      NIGERIA_STATES.map (fun s =>
        { year := extract_year text
          week :=
            match sw with
            | some w => w
            | none =>
              match cw with
              | some w => w
              | none => extract_week_info text
          state := s
          suspected := mapGet sm s
          confirmed := mapGet cm s }) := by
  have hcond : (!sm.isEmpty || !cm.isEmpty) = true := by
    rcases hne with h | h
    · cases sm with
      | nil => exact absurd rfl h
      | cons a t => simp
    · cases cm with
      | nil => exact absurd rfl h
      | cons a t => simp
  have hwk : (if optTruthy sw then sw.getD ""
      else if optTruthy cw then cw.getD "" else extract_week_info text) =
      (match sw with
       | some w => w
       | none =>
         match cw with
         | some w => w
         | none => extract_week_info text) := by
    cases sw with
    | some w =>
      have hw : w.data ≠ [] := section_week_digits hs
      have h1 : optTruthy (some w) = true := by
        simp only [optTruthy, Bool.not_eq_true']
        cases hdat : w.data with
        | nil => exact absurd hdat hw
        | cons a t => rfl
      simp [h1]
    | none =>
      rw [if_neg (by simp [optTruthy])]
      cases cw with
      | some w =>
        have hw : w.data ≠ [] := section_week_digits hc
        have h1 : optTruthy (some w) = true := by
          simp only [optTruthy, Bool.not_eq_true']
          cases hdat : w.data with
          | nil => exact absurd hdat hw
          | cons a t => rfl
        rw [if_pos h1]
        rfl
      | none => rw [if_neg (by simp [optTruthy])]
  simp only [parse_highlighted_data, hs, hc]
  rw [if_pos hcond, hwk]

/-- Witness for C3 on a concrete narrative document. -/
theorem c3_narrative_breakdown_witness :
    parse_highlighted_data "In week 34, the number of new suspected cases is 50, which were reported from three states - Lagos (10), Ogun (5) and Oyo (1)." =
      NIGERIA_STATES.map (fun s =>
        { year := extract_year "In week 34, the number of new suspected cases is 50, which were reported from three states - Lagos (10), Ogun (5) and Oyo (1)."
          week := "34"
          state := s
          suspected := mapGet [("Oyo", 1), ("Ogun", 5), ("Lagos", 10)] s
          confirmed := mapGet [] s }) := by
  have h := c3_narrative_breakdown
    "In week 34, the number of new suspected cases is 50, which were reported from three states - Lagos (10), Ogun (5) and Oyo (1)."
    (some "34") none (some 50) none
    [("Oyo", 1), ("Ogun", 5), ("Lagos", 10)] []
    (by decide) (by decide) (Or.inl (by decide))
  simpa using h

/-- C4: when neither narrative mapping is nonempty and the aggregate template
matched for at least one case type, `parse_highlighted_data` returns exactly
one `"Overall"` row carrying each case type's found total and 0 for a case
type not found. -/
theorem c4_aggregate_overall (text : String) (sw cw : Option String)
    (st ct : Option Int) (gsw gcw : Option String) (gst gct : Option Int)
    (hs : parse_highlighted_section text "suspected" = (sw, st, []))
    (hc : parse_highlighted_section text "confirmed" = (cw, ct, []))
    (hgs : parse_global_value text "suspected" = (gsw, gst))
    (hgc : parse_global_value text "confirmed" = (gcw, gct))
    (hne : gst.isSome ∨ gct.isSome) :
    parse_highlighted_data text =
      [{ year := extract_year text
         week := if optTruthy gsw then gsw.getD ""
                 else if optTruthy gcw then gcw.getD "" else extract_week_info text
         state := "Overall"
         suspected := gst.getD 0
         confirmed := gct.getD 0 }] := by
  have hcond : (gst.isSome || gct.isSome) = true := by
    rcases hne with h | h
    · simp [h]
    · simp [h]
  simp only [parse_highlighted_data, hs, hc, hgs, hgc]
  rw [if_neg (by simp), if_pos hcond]

/-- Witness for C4 on the spec's end-to-end scenario B text. -/
theorem c4_aggregate_overall_witness :
    parse_highlighted_data "In weeks 13-16 2024, 120 new suspected cases were reported..." =
      [{ year := "2024", week := "13-16", state := "Overall",
         suspected := 120, confirmed := 0 }] := by
  have h := c4_aggregate_overall
    "In weeks 13-16 2024, 120 new suspected cases were reported..."
    none none none none (some "13-16") none (some 120) none
    (by decide) (by decide) (by decide) (by decide) (Or.inl (by decide))
  exact h.trans (by decide)

/-- C5: in narrative list-item parsing, an item whose value carries the
trailing `%` marker contributes `round(total*value/100)` (Python rounding,
exact arithmetic), and an item without the marker contributes the literal
count. -/
theorem c5_percentage (total : Int) (m : List (String × Int))
    (item rest : List Char) (caps : Caps) (p : Int)
    (h : reM itemRE item [] capsK = some (rest, caps))
    (hp : intOfStr ((getGrp caps 2).getD []) = some p) :
    itemStep total m item =
      (String.mk (pyStrip ((getGrp caps 1).getD [])),
       if (getGrp caps 3).getD [] = ['%'] then pyRound ((total * p : ℚ) / 100)
       else p) :: m := by
  unfold itemStep
  rw [h]
  by_cases hpc : (getGrp caps 3).getD [] = ['%']
  · simp [hpc, hp]
  · simp [hpc, hp]

/-- Witness for C5: total 120 with the entry `"Abia (20%)"` yields count 24. -/
theorem c5_percentage_witness :
    itemStep 120 [] ("Abia (20%)".data) = [("Abia", 24)] := by
  have h := c5_percentage 120 [] ("Abia (20%)".data) []
    [(3, ['%']), (2, ['2', '0']), (1, ['A', 'b', 'i', 'a', ' '])] 20
    (by decide) (by decide)
  have hfl : ((⌊((120 : ℚ) * 20 / 100)⌋ : Int)) = 24 := by norm_num
  have hr : pyRound (((120 : Int) * (20 : Int) : ℚ) / 100) = 24 := by
    unfold pyRound
    push_cast
    rw [hfl]
    norm_num
  rw [h, if_pos (by decide :
    (getGrp [(3, ['%']), (2, ['2', '0']), (1, ['A', 'b', 'i', 'a', ' '])] 3).getD [] = ['%'])]
  rw [hr]
  decide

theorem registry_strip : ∀ s ∈ NIGERIA_STATES, pyStrip s.data = s.data := by decide

/-- C1 counterexample: a document whose fallback parse yields a non-registry
region name (`"Foo"`) and a duplicated registry region (`"Lagos"` twice);
the document is in breakdown mode (its parse is not a single `"Overall"`
row), yet the output's region values are not exactly the registry. -/
theorem c1_registry_counterexample :
    isSingleOverall (validRows "Foo suspected cases: 5, confirmed cases: 3\nLagos suspected cases: 2, confirmed cases: 1\nLagos suspected cases: 4, confirmed cases: 1") = false ∧
    (∃ r ∈ process_pdf_file "Foo suspected cases: 5, confirmed cases: 3\nLagos suspected cases: 2, confirmed cases: 1\nLagos suspected cases: 4, confirmed cases: 1" "report.pdf",
      ∀ s ∈ NIGERIA_STATES, lowerL (pyStrip r.state.data) ≠ lowerL s.data) ∧
    ((process_pdf_file "Foo suspected cases: 5, confirmed cases: 3\nLagos suspected cases: 2, confirmed cases: 1\nLagos suspected cases: 4, confirmed cases: 1" "report.pdf").map
      Row.state).count "Lagos" = 2 := by
  decide

/-- C1 as amended: for every breakdown-mode document (the parsed rows are not
a single `"Overall"` row), every canonical registry region appears
case-insensitively among the regions of `process_pdf_file`'s output; the
output may additionally contain non-registry region names and duplicated
registry names contributed by the parsed rows. -/
theorem c1_registry_completion (text filePath : String)
    (h : isSingleOverall (validRows text) = false) :
    ∀ s ∈ NIGERIA_STATES, ∃ r ∈ process_pdf_file text filePath,
      lowerL (pyStrip r.state.data) = lowerL s.data := by
  intro s hsmem
  have hcomp : completedRows text = validRows text ++ missingRows text (validRows text) := by
    unfold completedRows
    rw [if_neg (by simp [h])]
  unfold process_pdf_file
  rw [hcomp]
  by_cases hf : ((validRows text).map (fun r => lowerL (pyStrip r.state.data))).contains
      (lowerL s.data) = true
  · have hmem : lowerL s.data ∈ (validRows text).map (fun r => lowerL (pyStrip r.state.data)) := by
      simpa using hf
    obtain ⟨r, hrmem, hreq⟩ := List.mem_map.1 hmem
    refine ⟨_, List.mem_map_of_mem _ (List.mem_append_left _ hrmem), ?_⟩
    by_cases hw : (r.week == "Unknown") = true <;> simpa [hw] using hreq
  · have hsmem2 : s ∈ NIGERIA_STATES.filter (fun st =>
        !((validRows text).map (fun r => lowerL (pyStrip r.state.data))).contains
          (lowerL st.data)) := by
      rw [List.mem_filter]
      refine ⟨hsmem, ?_⟩
      simp only [Bool.not_eq_true'] at hf ⊢
      cases hc : ((validRows text).map (fun r => lowerL (pyStrip r.state.data))).contains
          (lowerL s.data) with
      | false => rfl
      | true => exact absurd hc hf
    refine ⟨_, List.mem_map_of_mem _ (List.mem_append_right _
      (List.mem_map_of_mem _ hsmem2)), ?_⟩
    have hstrip := registry_strip s hsmem
    by_cases hw : ((⟨extract_year text, extract_week_info text, s, 0, 0⟩ : Row).week ==
        "Unknown") = true <;> simp [hw, hstrip]

/-- Witness for C1's amended statement on a concrete breakdown-mode input. -/
theorem c1_registry_completion_witness :
    ∃ r ∈ process_pdf_file "" "report.pdf",
      lowerL (pyStrip r.state.data) = lowerL "Abia".data :=
  c1_registry_completion "" "report.pdf" (by decide) "Abia" (by decide)

/-- C2 (evidence of the code bug): a segment that mentions the cumulative
keyword once and references the two distinct years 2022 and 2023 is not
flagged by `detect_cumulative_multiyear` (the `findall` pattern needs a
separate `"cumulative"` occurrence per year), and in fallback parsing such a
segment still contributes its tabular rows. -/
theorem c2_cumulative_not_flagged :
    detect_cumulative_multiyear "Cumulative cases for 2022 and 2023" = false ∧
    (∃ r ∈ parse_report "Cumulative cases for 2022 and 2023\nLagos, 5, 2",
      r.state = "Lagos") := by
  decide

/-- C6: during reconciliation every row whose week is `"Unknown"` gets its
week replaced by the last digit run immediately preceding the `.pdf`
extension of the file name, keeping `"Unknown"` when the file name has no
such number; in particular file `"...090323_11.pdf"` resolves to week
`"11"`. -/
theorem c6_week_fallback :
    (∀ text filePath : String, process_pdf_file text filePath =
      (completedRows text).map (fun r =>
        if r.week == "Unknown" then { r with week := weekFromFilename filePath }
        else r)) ∧
    weekFromFilename "NCDC Mpox Situation Report 090323_11.pdf" = "11" ∧
    weekFromFilename "NCDC Mpox Situation Report.pdf" = "Unknown" := by
  refine ⟨fun text filePath => rfl, by decide, by decide⟩

theorem lexLt_irrefl : ∀ l : List Char, lexLt l l = false := by
  intro l
  induction l with
  | nil => rfl
  | cons a t ih =>
    simp only [lexLt, lt_irrefl, if_false]
    exact ih

theorem lexLt_asymm : ∀ {a b : List Char}, lexLt a b = true → lexLt b a = true → False := by
  intro a
  induction a with
  | nil =>
    intro b h1 h2
    cases b with
    | nil => simp [lexLt] at h1
    | cons c t => simp [lexLt] at h2
  | cons x xs ih =>
    intro b h1 h2
    cases b with
    | nil => simp [lexLt] at h1
    | cons y ys =>
      simp only [lexLt] at h1 h2
      by_cases hxy : x < y
      · rw [if_neg (lt_asymm hxy), if_pos hxy] at h2
        exact absurd h2 (by simp)
      · by_cases hyx : y < x
        · rw [if_neg hxy, if_pos hyx] at h1
          exact absurd h1 (by simp)
        · rw [if_neg hxy, if_neg hyx] at h1
          rw [if_neg hyx, if_neg hxy] at h2
          exact ih h1 h2

theorem lexLt_trans : ∀ {a b c : List Char},
    lexLt a b = true → lexLt b c = true → lexLt a c = true := by
  intro a
  induction a with
  | nil =>
    intro b c h1 h2
    cases b with
    | nil => simp [lexLt] at h1
    | cons y ys =>
      cases c with
      | nil => simp [lexLt] at h2
      | cons z zs => rfl
  | cons x xs ih =>
    intro b c h1 h2
    cases b with
    | nil => simp [lexLt] at h1
    | cons y ys =>
      cases c with
      | nil => simp [lexLt] at h2
      | cons z zs =>
        simp only [lexLt] at h1 h2 ⊢
        by_cases hxy : x < y
        · by_cases hyz : y < z
          · rw [if_pos (lt_trans hxy hyz)]
          · by_cases hzy : z < y
            · rw [if_neg hyz, if_pos hzy] at h2
              exact absurd h2 (by simp)
            · have hyzeq : y = z := le_antisymm (not_lt.1 hzy) (not_lt.1 hyz)
              rw [if_pos (hyzeq ▸ hxy)]
        · by_cases hyx : y < x
          · rw [if_neg hxy, if_pos hyx] at h1
            exact absurd h1 (by simp)
          · have hxyeq : x = y := le_antisymm (not_lt.1 hyx) (not_lt.1 hxy)
            subst hxyeq
            rw [if_neg hxy, if_neg hyx] at h1
            by_cases hyz : x < z
            · rw [if_pos hyz]
            · by_cases hzy : z < x
              · rw [if_neg hyz, if_pos hzy] at h2
                exact absurd h2 (by simp)
              · rw [if_neg hyz, if_neg hzy] at h2 ⊢
                exact ih h1 h2

theorem lexLe_refl : ∀ l : List Char, lexLe l l = true := by
  intro l
  induction l with
  | nil => rfl
  | cons a t ih =>
    simp only [lexLe, lt_irrefl, if_false]
    exact ih

theorem lexLe_iff : ∀ {a b : List Char}, lexLe a b = true ↔ (lexLt a b = true ∨ a = b) := by
  intro a
  induction a with
  | nil =>
    intro b
    cases b with
    | nil => simp [lexLe, lexLt]
    | cons y ys => simp [lexLe, lexLt]
  | cons x xs ih =>
    intro b
    cases b with
    | nil => simp [lexLe, lexLt]
    | cons y ys =>
      simp only [lexLe, lexLt]
      by_cases hxy : x < y
      · simp [hxy]
      · by_cases hyx : y < x
        · simp [hxy, hyx]
          intro h; exact absurd (h ▸ hyx) (lt_irrefl x)
        · have hxyeq : x = y := le_antisymm (not_lt.1 hyx) (not_lt.1 hxy)
          subst hxyeq
          simp only [if_neg hxy, if_neg hyx]
          rw [ih]
          simp

theorem lexLe_total : ∀ a b : List Char, (lexLe a b || lexLe b a) = true := by
  intro a
  induction a with
  | nil => intro b; simp [lexLe]
  | cons x xs ih =>
    intro b
    cases b with
    | nil => simp [lexLe]
    | cons y ys =>
      simp only [lexLe]
      by_cases hxy : x < y
      · simp [hxy]
      · by_cases hyx : y < x
        · simp [hxy, hyx]
        · have hxyeq : x = y := le_antisymm (not_lt.1 hyx) (not_lt.1 hxy)
          subst hxyeq
          simp only [if_neg hxy]
          exact ih ys

theorem lexLe_trans : ∀ {a b c : List Char},
    lexLe a b = true → lexLe b c = true → lexLe a c = true := by
  intro a b c h1 h2
  rcases lexLe_iff.1 h1 with h1' | rfl
  · rcases lexLe_iff.1 h2 with h2' | rfl
    · exact lexLe_iff.2 (Or.inl (lexLt_trans h1' h2'))
    · exact h1
  · exact h2

theorem lexLt_total_of_ne : ∀ {a b : List Char}, a ≠ b → (lexLt a b || lexLt b a) = true := by
  intro a
  induction a with
  | nil =>
    intro b hne
    cases b with
    | nil => exact absurd rfl hne
    | cons y ys => simp [lexLt]
  | cons x xs ih =>
    intro b hne
    cases b with
    | nil => simp [lexLt]
    | cons y ys =>
      simp only [lexLt]
      by_cases hxy : x < y
      · simp [hxy]
      · by_cases hyx : y < x
        · simp [hxy, hyx]
        · have hxyeq : x = y := le_antisymm (not_lt.1 hyx) (not_lt.1 hxy)
          subst hxyeq
          simp only [if_neg hxy]
          exact ih (fun h => hne (by rw [h]))

theorem keyLeB_trans : ∀ a b c : Row,
    keyLeB a b = true → keyLeB b c = true → keyLeB a c = true := by
  intro a b c h1 h2
  unfold keyLeB at h1 h2 ⊢
  by_cases hab : a.year.data = b.year.data
  · rw [if_pos hab] at h1
    by_cases hbc : b.year.data = c.year.data
    · rw [if_pos hbc] at h2
      rw [if_pos (hab.trans hbc)]
      by_cases wab : a.week.data = b.week.data
      · rw [if_pos wab] at h1
        by_cases wbc : b.week.data = c.week.data
        · rw [if_pos wbc] at h2
          rw [if_pos (wab.trans wbc)]
          exact lexLe_trans h1 h2
        · rw [if_neg wbc] at h2
          rw [if_neg (fun hac : a.week.data = c.week.data => wbc (wab.symm.trans hac)), wab]
          exact h2
      · rw [if_neg wab] at h1
        by_cases wbc : b.week.data = c.week.data
        · rw [if_neg (fun hac => wab (hac.trans wbc.symm)), ← wbc]
          exact h1
        · rw [if_neg wbc] at h2
          have hlt := lexLt_trans h1 h2
          have hac : a.week.data ≠ c.week.data := by
            intro hac
            rw [hac, lexLt_irrefl] at hlt
            exact absurd hlt (by simp)
          rw [if_neg hac]
          exact hlt
    · rw [if_neg hbc] at h2
      rw [if_neg (fun hac => hbc (hab.symm.trans hac)), hab]
      exact h2
  · rw [if_neg hab] at h1
    by_cases hbc : b.year.data = c.year.data
    · rw [if_neg (fun hac => hab (hac.trans hbc.symm)), ← hbc]
      exact h1
    · rw [if_neg hbc] at h2
      have hlt := lexLt_trans h1 h2
      have hac : a.year.data ≠ c.year.data := by
        intro hac
        rw [hac, lexLt_irrefl] at hlt
        exact absurd hlt (by simp)
      rw [if_neg hac]
      exact hlt

theorem keyLeB_total : ∀ a b : Row, (keyLeB a b || keyLeB b a) = true := by
  intro a b
  unfold keyLeB
  by_cases hab : a.year.data = b.year.data
  · rw [if_pos hab, if_pos hab.symm]
    by_cases wab : a.week.data = b.week.data
    · rw [if_pos wab, if_pos wab.symm]
      exact lexLe_total _ _
    · rw [if_neg wab, if_neg (fun h => wab h.symm)]
      exact lexLt_total_of_ne wab
  · rw [if_neg hab, if_neg (fun h => hab h.symm)]
    exact lexLt_total_of_ne hab

/-- C7 counterexample: the rows returned by `process_pdf_file` for a document
are not sorted by the `(year, week, region)` key — the registry-completion
order itself ends with `"Zamfara"` followed by `"FCT"`. -/
theorem c7_unsorted_counterexample :
    ¬ List.Pairwise keyLeP (process_pdf_file "" "report.pdf") := by
  decide

/-- C7 as amended: `process_pdf_file` itself returns rows unsorted; the
`(year, week, region)` sort belongs to the separate consolidation step
(`valid_data.sort` in `mpox_parser.py`'s `process_pdfs`), here `sortRows`:
its output is sorted by the key and is a permutation of its input, so ties on
identical keys are kept, not deduplicated. -/
theorem c7_consolidation_sorted (rows : List Row) :
    List.Pairwise keyLeP (sortRows rows) ∧ (sortRows rows).Perm rows := by
  constructor
  · exact List.sorted_mergeSort (fun a b c => keyLeB_trans a b c)
      (fun a b => keyLeB_total a b) rows
  · exact List.mergeSort_perm rows keyLeB

theorem intOfStr_nonneg {l : List Char} {n : Int} (h : intOfStr l = some n) : 0 ≤ n := by
  unfold intOfStr at h
  by_cases hc : (!l.isEmpty && l.all Char.isDigit) = true
  · rw [if_pos hc] at h
    simp only [Option.some.injEq] at h
    exact h ▸ Int.ofNat_nonneg _
  · rw [if_neg hc] at h
    exact absurd h (by simp)

theorem intOfStr_getD_nonneg (l : List Char) : 0 ≤ (intOfStr l).getD 0 := by
  cases hip : intOfStr l with
  | none => simp
  | some n => simpa using intOfStr_nonneg hip

theorem pyRound_nonneg {q : ℚ} (h : 0 ≤ q) : 0 ≤ pyRound q := by
  have hf : (0 : Int) ≤ ⌊q⌋ := Int.floor_nonneg.2 h
  unfold pyRound
  dsimp only
  split_ifs <;> omega

theorem itemStep_nonneg {total : Int} (ht : 0 ≤ total) {m : List (String × Int)}
    (hm : ∀ e ∈ m, 0 ≤ e.2) (item : List Char) :
    ∀ e ∈ itemStep total m item, 0 ≤ e.2 := by
  unfold itemStep
  cases hrm : reM itemRE item [] capsK with
  | none => exact hm
  | some val =>
    obtain ⟨rest, caps⟩ := val
    dsimp only
    intro e he
    by_cases hpc : ((getGrp caps 3).getD [] == ['%']) = true
    · rw [if_pos hpc] at he
      rcases List.mem_cons.1 he with rfl | he2
      · cases hip : intOfStr ((getGrp caps 2).getD []) with
        | none => simp [hip]
        | some p =>
          simp only [hip]
          exact pyRound_nonneg (div_nonneg
            (mul_nonneg (by exact_mod_cast ht) (by exact_mod_cast intOfStr_nonneg hip))
            (by norm_num))
      · exact hm e he2
    · rw [if_neg hpc] at he
      rcases List.mem_cons.1 he with rfl | he2
      · exact intOfStr_getD_nonneg _
      · exact hm e he2

theorem foldl_itemStep_nonneg {total : Int} (ht : 0 ≤ total) :
    ∀ (items : List (List Char)) (m : List (String × Int)),
    (∀ e ∈ m, 0 ≤ e.2) → ∀ e ∈ items.foldl (itemStep total) m, 0 ≤ e.2 := by
  intro items
  induction items with
  | nil => intro m hm; exact hm
  | cons i rest ih =>
    intro m hm
    exact ih (itemStep total m i) (itemStep_nonneg ht hm i)

theorem mapGet_nonneg {m : List (String × Int)} (hm : ∀ e ∈ m, 0 ≤ e.2) (k : String) :
    0 ≤ mapGet m k := by
  unfold mapGet
  cases hf : m.find? (fun e => e.1 == k) with
  | none => simp
  | some e => exact hm e (List.mem_of_find?_eq_some hf)

theorem section_total_nonneg {text ct : String} {w : Option String} {t : Int}
    {m : List (String × Int)}
    (h : parse_highlighted_section text ct = (w, some t, m)) : 0 ≤ t := by
  unfold parse_highlighted_section at h
  cases hs : reSearchC (narrRE ct) text.data with
  | none => rw [hs] at h; simp at h
  | some caps =>
    rw [hs] at h
    simp only [Prod.mk.injEq, Option.some.injEq] at h
    exact h.2.1 ▸ intOfStr_getD_nonneg _

theorem section_map_nonneg {text ct : String} {w : Option String} {t : Option Int}
    {m : List (String × Int)}
    (h : parse_highlighted_section text ct = (w, t, m)) : ∀ e ∈ m, 0 ≤ e.2 := by
  unfold parse_highlighted_section at h
  cases hs : reSearchC (narrRE ct) text.data with
  | none =>
    rw [hs] at h
    simp only [Prod.mk.injEq] at h
    rw [← h.2.2]
    intro e he
    simp at he
  | some caps =>
    rw [hs] at h
    simp only [Prod.mk.injEq] at h
    rw [← h.2.2]
    exact foldl_itemStep_nonneg (intOfStr_getD_nonneg _) _ _ (by intro e he; simp at he)

theorem global_total_nonneg {text ct : String} {w : Option String} {t : Int}
    (h : parse_global_value text ct = (w, some t)) : 0 ≤ t := by
  unfold parse_global_value at h
  cases hs : reSearchC (globRE ct) text.data with
  | none => rw [hs] at h; simp at h
  | some caps =>
    rw [hs] at h
    simp only [Prod.mk.injEq, Option.some.injEq] at h
    exact h.2 ▸ intOfStr_getD_nonneg _

theorem phd_nonneg (text : String) :
    ∀ r ∈ parse_highlighted_data text, 0 ≤ r.suspected ∧ 0 ≤ r.confirmed := by
  intro r hr
  rcases hsp : parse_highlighted_section text "suspected" with ⟨sw, st, sm⟩
  rcases hcp : parse_highlighted_section text "confirmed" with ⟨cw, ct, cm⟩
  unfold parse_highlighted_data at hr
  rw [hsp, hcp] at hr
  by_cases hcond : (!sm.isEmpty || !cm.isEmpty) = true
  · rw [if_pos hcond] at hr
    obtain ⟨s, _, rfl⟩ := List.mem_map.1 hr
    exact ⟨mapGet_nonneg (section_map_nonneg hsp) s, mapGet_nonneg (section_map_nonneg hcp) s⟩
  · rw [if_neg hcond] at hr
    rcases hgs : parse_global_value text "suspected" with ⟨gsw, gst⟩
    rcases hgc : parse_global_value text "confirmed" with ⟨gcw, gct⟩
    rw [hgs, hgc] at hr
    by_cases hcond2 : (gst.isSome || gct.isSome) = true
    · rw [if_pos hcond2] at hr
      rcases List.mem_cons.1 hr with rfl | hr2
      · constructor
        · cases hst : gst with
          | none => simp
          | some t => simpa using global_total_nonneg (hst ▸ hgs)
        · cases hct : gct with
          | none => simp
          | some t => simpa using global_total_nonneg (hct ▸ hgc)
      · simp at hr2
    · rw [if_neg hcond2] at hr
      simp at hr

theorem segmentRows_nonneg (y w : String) (seg : List Char) :
    ∀ r ∈ segmentRows y w seg, 0 ≤ r.suspected ∧ 0 ≤ r.confirmed := by
  intro r hr
  unfold segmentRows at hr
  by_cases hdet : detect_cumulative_multiyear (String.mk seg) = true
  · rw [if_pos hdet] at hr
    simp at hr
  · rw [if_neg hdet] at hr
    by_cases hms : (!(findIterC summaryRE seg).isEmpty) = true
    · rw [if_pos hms] at hr
      obtain ⟨caps, -, heq⟩ := List.mem_filterMap.1 hr
      cases hsu : intOfStr (dropCommas ((getGrp caps 2).getD [])) with
      | none => rw [hsu] at heq; simp at heq
      | some su =>
        cases hco : intOfStr (dropCommas ((getGrp caps 3).getD [])) with
        | none => rw [hsu, hco] at heq; simp at heq
        | some co =>
          rw [hsu, hco] at heq
          simp only [Option.some.injEq] at heq
          rw [← heq]
          exact ⟨intOfStr_nonneg hsu, intOfStr_nonneg hco⟩
    · rw [if_neg hms] at hr
      obtain ⟨line, -, heq⟩ := List.mem_filterMap.1 hr
      cases hrm : reM tableRE line [] capsK with
      | none => rw [hrm] at heq; simp at heq
      | some val =>
        obtain ⟨rest, caps⟩ := val
        rw [hrm] at heq
        dsimp only at heq
        cases hsu : intOfStr (dropCommas ((getGrp caps 2).getD [])) with
        | none => rw [hsu] at heq; simp at heq
        | some su =>
          cases hco : intOfStr (dropCommas ((getGrp caps 3).getD [])) with
          | none => rw [hsu, hco] at heq; simp at heq
          | some co =>
            rw [hsu, hco] at heq
            simp only [Option.some.injEq] at heq
            rw [← heq]
            exact ⟨intOfStr_nonneg hsu, intOfStr_nonneg hco⟩

theorem parse_report_nonneg (text : String) :
    ∀ r ∈ parse_report text, 0 ≤ r.suspected ∧ 0 ≤ r.confirmed := by
  intro r hr
  unfold parse_report at hr
  by_cases hhl : (!(parse_highlighted_data text).isEmpty) = true
  · rw [if_pos hhl] at hr
    exact phd_nonneg text r hr
  · rw [if_neg hhl] at hr
    obtain ⟨l, hl, hrl⟩ := List.mem_flatten.1 hr
    obtain ⟨seg, -, rfl⟩ := List.mem_map.1 hl
    exact segmentRows_nonneg _ _ seg r hrl

/-- C9: every row returned by `process_pdf_file` has nonnegative suspected and
confirmed counts, for every document text and file path. -/
theorem c9_output_nonneg (text filePath : String) (r : Row)
    (hr : r ∈ process_pdf_file text filePath) :
    0 ≤ r.suspected ∧ 0 ≤ r.confirmed := by
  unfold process_pdf_file at hr
  obtain ⟨r0, hr0, rfl⟩ := List.mem_map.1 hr
  have h0 : 0 ≤ r0.suspected ∧ 0 ≤ r0.confirmed := by
    unfold completedRows at hr0
    by_cases hso : isSingleOverall (validRows text) = true
    · rw [if_pos hso] at hr0
      exact parse_report_nonneg text r0 (List.mem_of_mem_filter hr0)
    · rw [if_neg hso] at hr0
      rcases List.mem_append.1 hr0 with hv | hm
      · exact parse_report_nonneg text r0 (List.mem_of_mem_filter hv)
      · unfold missingRows at hm
        obtain ⟨s, -, rfl⟩ := List.mem_map.1 hm
        exact ⟨le_refl 0, le_refl 0⟩
  by_cases hw : (r0.week == "Unknown") = true <;> simpa [hw] using h0

/-- Witness for C9 at a concrete document, file path, and output row. -/
theorem c9_output_nonneg_witness :
    0 ≤ (Row.mk "" "Unknown" "Abia" 0 0).suspected ∧
    0 ≤ (Row.mk "" "Unknown" "Abia" 0 0).confirmed :=
  c9_output_nonneg "" "report.pdf" (Row.mk "" "Unknown" "Abia" 0 0) (by decide)
